import Mathlib

/-!
Shallow embedding of the BIP32 hierarchical-deterministic key-derivation engine
found in `bip32.py`, together with theorems settling the frozen claims about it.

Modelling conventions:
* Python `bytes` values are `List Nat` (each entry a byte value 0..255 where the
  source guarantees it); character strings are `List Nat` of code points.
* Python calls into the external libraries (`hmac`/`hashlib` digests, the
  `ecdsa` secp256k1 point arithmetic, `base58`'s hash functions) are modelled
  as fields of an explicit `Primitives` record supplied to every function,
  so every definition stays executable and the theorems quantify over the
  library behaviour where the source delegates to it.
* Fallible code (Python `assert`, `raise`, `int.to_bytes` overflow, the range
  checks performed inside `ecdsa.SigningKey.from_string`) returns `Option`.
-/

namespace BIP32

/-- Big-endian accumulation of digit lists, mirroring the loops
`int.from_bytes(v, "big")` (base 256) and base58's digit accumulation
`acc = acc * 58 + alphabet.index(char)` (base 58). -/
def fromBase (b : Nat) (l : List Nat) : Nat :=
  l.foldl (fun a d => b * a + d) 0

/-- Model of Python `int.from_bytes(v, "big")`. -/
def fromBytes (l : List Nat) : Nat := fromBase 256 l

/-- Fuel-driven big-endian digit expansion; with fuel at least `n` it produces
the base-`b` digits of `n`, most significant first, with no leading zeros. -/
def natToBaseAux (b : Nat) : Nat → Nat → List Nat
  | 0, _ => []
  | fuel+1, n => if n = 0 then [] else natToBaseAux b fuel (n / b) ++ [n % b]

/-- Big-endian base-`b` digits of `n` (empty for `n = 0`), as produced by the
`divmod` loops in `base58.b58encode_int` and `base58.b58decode`. -/
def natToBase (b n : Nat) : List Nat := natToBaseAux b n n

/-- Minimal big-endian byte expansion of a natural number. -/
def natToBytes (n : Nat) : List Nat := natToBase 256 n

/-- Model of Python `v.to_bytes(len, "big")`: fails on negative values and on
values that do not fit (`OverflowError`), otherwise pads to exactly `len`
bytes. -/
def toBytesF (len : Nat) (v : Int) : Option (List Nat) :=
  if 0 ≤ v ∧ v < (256 : Int) ^ len then
    some (List.replicate (len - (natToBytes v.toNat).length) 0 ++ natToBytes v.toNat)
  else none

/-- Order of the secp256k1 group (`SECP256k1.order` of the `ecdsa` library). -/
def curveOrder : Nat :=
  0xFFFFFFFFFFFFFFFFFFFFFFFFFFFFFFFEBAAEDCE6AF48A03BBFD25E8CD0364141

/-- Count of non-hardened child keys, `NORMAL_CHILD_KEY_COUNT = 2**31`. -/
def NORMAL_CHILD_KEY_COUNT : Nat := 2 ^ 31

/-- External cryptographic primitives the source delegates to:
`hmac512` models `hmac.new(key, msg, "sha512").digest()`; `pub` models the
compressed serialization of `scalar * G` (`ecdsa` `to_string("compressed")`);
`pubAdd il pk` models the compressed serialization of `il * G + point(pk)`
used by `CKDpub`; `sha256` and `ripemd160` model the `hashlib` digests. -/
structure Primitives where
  hmac512 : List Nat → List Nat → List Nat
  pub : Nat → List Nat
  pubAdd : Nat → List Nat → List Nat
  sha256 : List Nat → List Nat
  ripemd160 : List Nat → List Nat

/-- The immutable extended-key record, mirroring the `ExtendedKey` namedtuple
fields `version, depth, finger, child_number, chain_code, data`. -/
structure ExtendedKey where
  version : List Nat
  depth : List Nat
  finger : List Nat
  child_number : List Nat
  chain_code : List Nat
  data : List Nat
  deriving DecidableEq, Repr

/-- Version bytes `0488B21E` (mainnet public). -/
def mainPub : List Nat := [0x04, 0x88, 0xB2, 0x1E]

/-- Version bytes `0488ADE4` (mainnet private). -/
def mainPriv : List Nat := [0x04, 0x88, 0xAD, 0xE4]

/-- Version bytes `043587CF` (testnet public). -/
def testPub : List Nat := [0x04, 0x35, 0x87, 0xCF]

/-- Version bytes `04358394` (testnet private). -/
def testPriv : List Nat := [0x04, 0x35, 0x83, 0x94]

/-- The four known version constants, `VERSIONS` flattened. -/
def versionList : List (List Nat) := [mainPub, mainPriv, testPub, testPriv]

/-- Version lookup `VERSIONS["mainnet"/"testnet"]["public"/"private"]`. -/
def versionBytes (mainnet priv : Bool) : List Nat :=
  if mainnet then (if priv then mainPriv else mainPub)
  else (if priv then testPriv else testPub)

/-- Model of `ExtendedKey.__new__`: the six `assert len(...)` checks, then
construction.  Version membership is NOT checked here, exactly as in the
source. -/
def mkExtendedKey (version depth finger child_number chain_code data : List Nat) :
    Option ExtendedKey :=
  if version.length = 4 ∧ depth.length = 1 ∧ finger.length = 4 ∧
      child_number.length = 4 ∧ chain_code.length = 32 ∧ data.length = 33 then
    some ⟨version, depth, finger, child_number, chain_code, data⟩
  else none

/-- ASCII bytes of `b"Bitcoin seed"`. -/
def bitcoinSeedKey : List Nat := [66, 105, 116, 99, 111, 105, 110, 32, 115, 101, 101, 100]

/-- Model of `to_public_key`: asserts a 33-byte input, then
`SigningKey.from_string(secret_key[1:], curve=SECP256k1)` which rejects a
scalar outside `[1, curve_order)` (the `ecdsa` library's
`from_secret_exponent` range check), then the compressed public key with its
33-byte length assert. -/
def to_public_key (P : Primitives) (secret_key : List Nat) : Option (List Nat) :=
  if secret_key.length = 33 then
    let s := fromBytes (secret_key.drop 1)
    if 1 ≤ s ∧ s < curveOrder then
      let compressed := P.pub s
      if compressed.length = 33 then some compressed else none
    else none
  else none

/-- Model of `fingerprint`: `RIPEMD160(SHA256(pubkey))[:4]`. -/
def fingerprint (P : Primitives) (private_key : List Nat) : Option (List Nat) :=
  (to_public_key P private_key).map fun pk => (P.ripemd160 (P.sha256 pk)).take 4

/-- Model of `validate_derived_key`: the `assert len(key) == 64` becomes
`none`; otherwise returns whether `I_L` is a valid scalar (nonzero and below
the curve order). -/
def validate_derived_key (key : List Nat) : Option Bool :=
  if key.length = 64 then
    let secret_int := fromBytes (key.take 32)
    some (!(secret_int == 0 || decide (curveOrder ≤ secret_int)))
  else none

/-- Model of `to_master_key`: `I = HMAC-SHA512(b"Bitcoin seed", seed)`,
split into secret key and chain code; the public key is computed (through the
library's scalar range check) before the key record is assembled, regardless
of the requested visibility, exactly as in the source. -/
def to_master_key (P : Primitives) (seed : List Nat) (mainnet priv : Bool) :
    Option ExtendedKey :=
  let master := P.hmac512 bitcoinSeedKey seed
  let secret_key := master.take 32
  let chain_code := master.drop 32
  match to_public_key P (0 :: secret_key) with
  | none => none
  | some pub_key =>
      mkExtendedKey (versionBytes mainnet priv) [0] [0, 0, 0, 0] [0, 0, 0, 0]
        chain_code (if priv then 0 :: secret_key else pub_key)

/-- The `while True` retry loop of `CKDpriv`: serialize the index (Python
`index.to_bytes(4, "big")`, which raises on a negative or too-large index),
take the HMAC, and either accept the derived bytes or retry with `index + 1`
under the source's `assert index < 2**32` (hardened) or
`assert index < NORMAL_CHILD_KEY_COUNT` (normal) bound.  The loop body runs at
most `2^32` times before one of the bound asserts fires, so fuel `2^32 + 1`
never runs out on the source's behaviours; fuel exhaustion is also `none`. -/
def ckdLoop (P : Primitives) (chain_code data : List Nat) (hardened : Bool) :
    Nat → Int → Option (Int × List Nat)
  | 0, _ => none
  | fuel+1, index =>
    match toBytesF 4 index with
    | none => none
    | some ib =>
      let derived := P.hmac512 chain_code (data ++ ib)
      match validate_derived_key derived with
      | none => none
      | some true => some (index, derived)
      | some false =>
        let index1 := index + 1
        if hardened then
          if index1 < (2 : Int) ^ 32 then ckdLoop P chain_code data hardened fuel index1
          else none
        else
          if index1 < (2 : Int) ^ 31 then ckdLoop P chain_code data hardened fuel index1
          else none

/-- Model of `CKDpriv`: hardened test, HMAC input selection, the retry loop,
the child scalar `(I_L + parent) mod curve_order` (note: the source performs
no zero test on the child scalar), and assembly of the child record. -/
def CKDpriv (P : Primitives) (secret_key chain_code : List Nat) (index : Int)
    (depth : Nat) (mainnet : Bool) : Option ExtendedKey :=
  let hardened := (2 : Int) ^ 31 ≤ index
  let secret_int := fromBytes (secret_key.drop 1)
  let data := if hardened then secret_key else P.pub secret_int
  match ckdLoop P chain_code data hardened (2 ^ 32 + 1) index with
  | none => none
  | some (index2, derived) =>
    let child_key_int := (fromBytes (derived.take 32) + fromBytes secret_key) % curveOrder
    (toBytesF 32 (child_key_int : Int)).bind fun ckb =>
    (toBytesF 1 (depth : Int)).bind fun depthB =>
    (fingerprint P secret_key).bind fun fingerB =>
    (toBytesF 4 index2).bind fun indexB =>
    mkExtendedKey (versionBytes mainnet true) depthB fingerB indexB
      (derived.drop 32) (0 :: ckb)

/-- Model of `N`: neuter a private key into the public one, keeping the chain
code and the externally supplied parent fingerprint. -/
def N (P : Primitives) (private_key chain_code : List Nat) (index : Int)
    (depth : Nat) (mainnet : Bool) (finger : List Nat) : Option ExtendedKey :=
  (toBytesF 1 (depth : Int)).bind fun depthB =>
  (toBytesF 4 index).bind fun indexB =>
  (to_public_key P private_key).bind fun pk =>
  mkExtendedKey (versionBytes mainnet false) depthB finger indexB chain_code pk

/-- Model of `CKDpub`: rejects a hardened index with `ValueError`, then a
single HMAC and point computation with NO retry for an out-of-range `I_L`
(the source carries only a TODO comment for that case). -/
def CKDpub (P : Primitives) (public_key chain_code : List Nat) (index : Int)
    (depth : Nat) (finger : List Nat) (mainnet : Bool) : Option ExtendedKey :=
  if (NORMAL_CHILD_KEY_COUNT : Int) ≤ index then none
  else
    (toBytesF 4 index).bind fun ib =>
    let derived := P.hmac512 chain_code (public_key ++ ib)
    let derived_key := fromBytes (derived.take 32)
    let derived_chain_code := derived.drop 32
    let child_key := P.pubAdd derived_key public_key
    (toBytesF 1 (depth : Int)).bind fun depthB =>
    mkExtendedKey (versionBytes mainnet false) depthB finger ib
      derived_chain_code child_key

/-- Decimal digit test on a code point, as accepted by Python `int()`. -/
def isDigitB (c : Nat) : Bool := decide (48 ≤ c ∧ c ≤ 57)

/-- Numeric value of a big-endian list of decimal-digit code points. -/
def digitsToNat (l : List Nat) : Nat :=
  l.foldl (fun a c => 10 * a + (c - 48)) 0

/-- Model of Python `int()` on optionally signed decimal strings (the only
shapes the derivation-path code can feed it): an optional `-` (code 45) or `+`
(code 43) sign followed by at least one decimal digit; anything else raises
`ValueError`. -/
def pythonInt (s : List Nat) : Option Int :=
  match s with
  | [] => none
  | c0 :: cs =>
    if c0 = 45 then
      (if cs ≠ [] ∧ cs.all isDigitB then some (-(digitsToNat cs : Int)) else none)
    else if c0 = 43 then
      (if cs ≠ [] ∧ cs.all isDigitB then some ((digitsToNat cs : Int)) else none)
    else
      (if (c0 :: cs).all isDigitB then some ((digitsToNat (c0 :: cs) : Int)) else none)

/-- Membership of the final character in the hardened-marker set
`{"h", "H", "'"}` (code points 104, 72, 39). -/
def hardenedMark (c : Nat) : Bool := c == 104 || c == 72 || c == 39

/-- Model of `segment_to_index`: look at the last character (Python
`segment[-1]`, an error on an empty segment), strip a hardened marker, parse
the remainder with `int()`, enforce `index <= NORMAL_CHILD_KEY_COUNT - 1`, and
add the hardened offset. -/
def segment_to_index (segment : List Nat) : Option (Int × Bool) :=
  match segment.getLast? with
  | none => none
  | some lastc =>
    let hardened := hardenedMark lastc
    let seg := if hardened then segment.dropLast else segment
    match pythonInt seg with
    | none => none
    | some index =>
      if index ≤ (NORMAL_CHILD_KEY_COUNT : Int) - 1 then
        some ((if hardened then index + NORMAL_CHILD_KEY_COUNT else index), hardened)
      else none

/-- Model of Python `str.split` with a one-character separator: always returns
at least one (possibly empty) piece. -/
def pySplit (sep : Nat) : List Nat → List (List Nat)
  | [] => [[]]
  | c :: rest =>
    match pySplit sep rest with
    | [] => [[c]]
    | s :: ss => if c = sep then [] :: s :: ss else (c :: s) :: ss

/-- The list comprehension `[segment_to_index(s) for s in segments[1:]]`:
the first failing segment aborts the whole computation. -/
def parseSegments : List (List Nat) → Option (List (Int × Bool))
  | [] => some []
  | s :: rest =>
    match segment_to_index s, parseSegments rest with
    | some i, some is => some (i :: is)
    | _, _ => none

/-- The `for depth, (index, hardened) in enumerate(indexes, 1)` loop of
`derive_key`: always `CKDpriv`, and at the final segment with a public result
requested, neuter the key just derived and, for a non-hardened final segment,
additionally run `CKDpub` on that neutered key. -/
def deriveLoop (P : Primitives) (mainnet priv : Bool) (max_depth : Nat) :
    ExtendedKey → Nat → List (Int × Bool) → Option ExtendedKey
  | parent_key, _, [] => some parent_key
  | parent_key, depth, (index, hardened) :: rest =>
    (CKDpriv P parent_key.data parent_key.chain_code index depth mainnet).bind
      fun next =>
    if depth = max_depth ∧ priv = false then
      (N P next.data next.chain_code index depth mainnet next.finger).bind fun t =>
      if hardened then deriveLoop P mainnet priv max_depth t (depth + 1) rest
      else
        (CKDpub P t.data t.chain_code index depth t.finger mainnet).bind fun u =>
        deriveLoop P mainnet priv max_depth u (depth + 1) rest
    else deriveLoop P mainnet priv max_depth next (depth + 1) rest

/-- Model of `derive_key`: split the path, require the root to be `"m"` (code
109), parse the segments, and either return the master key directly or fold
the derivation loop starting at the private master key. -/
def derive_key (P : Primitives) (master_seed : List Nat) (path : List Nat)
    (mainnet priv : Bool) : Option ExtendedKey :=
  match pySplit 47 path with
  | [] => none
  | s0 :: rest =>
    if s0 = [109] then
      (parseSegments rest).bind fun indexes =>
      if indexes = [] then to_master_key P master_seed mainnet priv
      else
        (to_master_key P master_seed mainnet true).bind fun parent_key =>
        deriveLoop P mainnet priv indexes.length parent_key 1 indexes
    else none

/-- Code points of `base58.BITCOIN_ALPHABET`,
`"123456789ABCDEFGHJKLMNPQRSTUVWXYZabcdefghijkmnopqrstuvwxyz"`. -/
def alphaCodes : List Nat :=
  [49, 50, 51, 52, 53, 54, 55, 56, 57,
   65, 66, 67, 68, 69, 70, 71, 72, 74, 75, 76, 77, 78, 80, 81, 82, 83, 84,
   85, 86, 87, 88, 89, 90,
   97, 98, 99, 100, 101, 102, 103, 104, 105, 106, 107, 109, 110, 111, 112,
   113, 114, 115, 116, 117, 118, 119, 120, 121, 122]

/-- Alphabet lookup `alphabet[d]` for a digit `d < 58`. -/
def alphaGet (d : Nat) : Nat := alphaCodes.getD d 0

/-- Alphabet search `alphabet.index(c)`. -/
def alphaIdx (c : Nat) : Nat := alphaCodes.indexOf c

/-- Model of `base58.b58encode`: strip leading zero bytes, emit one `'1'`
(code 49) per stripped zero, then the base-58 digits of the remaining
big-endian integer through the alphabet. -/
def b58encode (v : List Nat) : List Nat :=
  let stripped := v.dropWhile (· == 0)
  let zeros := v.length - stripped.length
  List.replicate zeros 49 ++ (natToBase 58 (fromBytes stripped)).map alphaGet

/-- Model of `base58.b58decode`: strip leading `'1'` characters, look every
remaining character up in the alphabet (a missing character raises
`ValueError`), accumulate the base-58 integer and re-expand it to bytes,
prepending one zero byte per stripped `'1'`.  The library's initial strip of
trailing whitespace is not modelled: inputs are taken as already scrubbed
character lists (whitespace is not in the alphabet, so un-stripped trailing
whitespace would simply be a decode failure here). -/
def b58decode (chars : List Nat) : Option (List Nat) :=
  let stripped := chars.dropWhile (· == 49)
  let zeros := chars.length - stripped.length
  if stripped.all (fun c => alphaCodes.contains c) then
    some (List.replicate zeros 0 ++ natToBytes (fromBase 58 (stripped.map alphaIdx)))
  else none

/-- Model of `base58.b58encode_check`: append the first four bytes of the
double SHA-256 of the payload, then base58-encode. -/
def b58encode_check (P : Primitives) (v : List Nat) : List Nat :=
  b58encode (v ++ (P.sha256 (P.sha256 v)).take 4)

/-- Model of `base58.b58decode_check`: base58-decode, split off the last four
bytes and compare them against the recomputed double SHA-256 checksum
(`ValueError` on mismatch). -/
def b58decode_check (P : Primitives) (chars : List Nat) : Option (List Nat) :=
  (b58decode chars).bind fun result =>
  let payload := result.take (result.length - 4)
  let check := result.drop (result.length - 4)
  if check = (P.sha256 (P.sha256 payload)).take 4 then some payload else none

/-- The 78-byte wire payload of a key,
`version ‖ depth ‖ finger ‖ child_number ‖ chain_code ‖ data`. -/
def ExtendedKey.payload (k : ExtendedKey) : List Nat :=
  k.version ++ k.depth ++ k.finger ++ k.child_number ++ k.chain_code ++ k.data

/-- Model of `ExtendedKey.__str__`: base58check serialization of the payload. -/
def ExtendedKey.str (P : Primitives) (k : ExtendedKey) : List Nat :=
  b58encode_check P k.payload

/-- Model of `parse_ext_key`: base58check-decode, `assert len(...) == 78`,
slice the six fields through the constructor's length asserts, and require the
version to be one of the four known constants. -/
def parse_ext_key (P : Primitives) (chars : List Nat) : Option ExtendedKey :=
  (b58decode_check P chars).bind fun master_dec =>
  if master_dec.length = 78 then
    (mkExtendedKey (master_dec.take 4) ((master_dec.drop 4).take 1)
        ((master_dec.drop 5).take 4) ((master_dec.drop 9).take 4)
        ((master_dec.drop 13).take 32) (master_dec.drop 45)).bind fun key =>
    if key.version ∈ versionList then some key else none
  else none

/-- C5 hypothesis package: a structurally valid key, with genuine byte values
and a known version, as produced by the master-key and child-derivation
constructors. -/
def wellFormedKey (k : ExtendedKey) : Prop :=
  k.version.length = 4 ∧ k.depth.length = 1 ∧ k.finger.length = 4 ∧
  k.child_number.length = 4 ∧ k.chain_code.length = 32 ∧ k.data.length = 33 ∧
  (∀ x ∈ k.payload, x < 256) ∧ k.version ∈ versionList

instance (k : ExtendedKey) : Decidable (wellFormedKey k) := by
  unfold wellFormedKey
  infer_instance

/-- Toy primitive instantiation used to evaluate the embedding on concrete
inputs: HMAC keeps the (data, key) bytes, the point operations tag their
serializations with leading markers 2 and 3, and the hashes are constant. -/
def tP : Primitives :=
  ⟨fun key data => (data ++ key ++ List.replicate 64 1).take 64,
   fun s => 2 :: (List.replicate (32 - (natToBytes s).length) 0 ++ natToBytes s),
   fun il pk => 3 :: (natToBytes il ++ pk).take 32,
   fun _ => List.replicate 32 5,
   fun _ => List.replicate 20 6⟩

/-- Toy primitives whose HMAC always reports an `I_L` of all `0xFF` bytes,
which is at least the curve order. -/
def tPbig : Primitives :=
  ⟨fun _ _ => List.replicate 32 255 ++ List.replicate 32 9,
   fun _ => List.replicate 33 2,
   fun _ _ => List.replicate 33 4,
   fun _ => List.replicate 32 5,
   fun _ => List.replicate 20 6⟩

/-- The 32 bytes of `curveOrder - 1`. -/
def ilNm1 : List Nat :=
  [255, 255, 255, 255, 255, 255, 255, 255, 255, 255, 255, 255, 255, 255, 255, 254,
   186, 174, 220, 230, 175, 72, 160, 59, 191, 210, 94, 140, 208, 54, 65, 64]

/-- Toy primitives whose HMAC always reports `I_L = curveOrder - 1`. -/
def tPnm1 : Primitives :=
  ⟨fun _ _ => ilNm1 ++ List.replicate 32 2,
   fun _ => List.replicate 33 2,
   fun _ _ => List.replicate 33 3,
   fun _ => List.replicate 32 5,
   fun _ => List.replicate 20 6⟩

/-- Toy primitives whose HMAC is all zeros, so the master scalar `I_L` is 0. -/
def tPzero : Primitives :=
  ⟨fun _ _ => List.replicate 64 0,
   fun _ => List.replicate 33 2,
   fun _ _ => List.replicate 33 4,
   fun _ => List.replicate 32 5,
   fun _ => List.replicate 20 6⟩

/-- A 33-byte private key record holding the scalar 1. -/
def secret4 : List Nat := 0 :: (List.replicate 31 0 ++ [1])

/-- The code points of the path `m/0/0/.../0` with 256 zero segments. -/
def longPath : List Nat := 109 :: (List.replicate 256 [47, 48]).flatten

/-! Helper lemmas about the digit-expansion and accumulation helpers. -/

theorem natToBaseAux_eq_digits (b : Nat) (hb : 2 ≤ b) :
    ∀ fuel n, n ≤ fuel → natToBaseAux b fuel n = (Nat.digits b n).reverse := by
  intro fuel
  induction fuel with
  | zero =>
    intro n hn
    interval_cases n
    simp [natToBaseAux]
  | succ f ih =>
    intro n hn
    by_cases h0 : n = 0
    · simp [natToBaseAux, h0]
    · have hdiv : n / b ≤ f := by
        have h1 : n / b < n := Nat.div_lt_self (Nat.pos_of_ne_zero h0) (by omega)
        omega
      rw [natToBaseAux, if_neg h0, ih _ hdiv,
        Nat.digits_def' (by omega : 1 < b) (Nat.pos_of_ne_zero h0)]
      simp

theorem natToBase_eq_digits (b n : Nat) (hb : 2 ≤ b) :
    natToBase b n = (Nat.digits b n).reverse :=
  natToBaseAux_eq_digits b hb n n le_rfl

theorem fromBase_foldl (b : Nat) : ∀ (l : List Nat) (a : Nat),
    l.foldl (fun x d => b * x + d) a = a * b ^ l.length + Nat.ofDigits b l.reverse := by
  intro l
  induction l with
  | nil => intro a; simp [Nat.ofDigits]
  | cons d t ih =>
    intro a
    rw [List.foldl_cons, ih, List.reverse_cons, Nat.ofDigits_append]
    simp [Nat.ofDigits_singleton, pow_succ]
    ring

theorem fromBase_eq_ofDigits (b : Nat) (l : List Nat) :
    fromBase b l = Nat.ofDigits b l.reverse := by
  rw [fromBase, fromBase_foldl]
  simp

theorem fromBase_natToBase (b n : Nat) (hb : 2 ≤ b) :
    fromBase b (natToBase b n) = n := by
  rw [natToBase_eq_digits b n hb, fromBase_eq_ofDigits, List.reverse_reverse,
    Nat.ofDigits_digits]

theorem natToBase_fromBase (b : Nat) (l : List Nat) (hb : 2 ≤ b)
    (hl : ∀ d ∈ l, d < b) (hh : ∀ x ∈ l.head?, x ≠ 0) :
    natToBase b (fromBase b l) = l := by
  rw [fromBase_eq_ofDigits, natToBase_eq_digits _ _ hb,
    Nat.digits_ofDigits b (by omega) l.reverse
      (by intro d hd; exact hl d (List.mem_reverse.mp hd))
      (by
        intro hne
        rw [List.getLast_reverse]
        have : l ≠ [] := by simpa using hne
        intro hc
        exact hh _ (by simp [List.head?_eq_head this, hc]) rfl),
    List.reverse_reverse]

theorem fromBase_head_pos (b : Nat) (h0 : Nat) (t : List Nat) (hb : 2 ≤ b)
    (hh : h0 ≠ 0) : 0 < fromBase b (h0 :: t) := by
  rw [fromBase_eq_ofDigits, List.reverse_cons, Nat.ofDigits_append]
  have h1 : 0 < b ^ t.reverse.length := pow_pos (by omega) _
  have h2 : 0 < b ^ t.reverse.length * Nat.ofDigits b [h0] := by
    apply Nat.mul_pos h1
    simp [Nat.ofDigits_singleton]
    omega
  omega

theorem alphaIdx_alphaGet : ∀ d < 58, alphaIdx (alphaGet d) = d := by decide

theorem alphaGet_ne_one : ∀ d < 58, d ≠ 0 → alphaGet d ≠ 49 := by decide

theorem alphaGet_mem : ∀ d < 58, alphaGet d ∈ alphaCodes := by decide


theorem b58decode_b58encode (v : List Nat) (hbytes : ∀ x ∈ v, x < 256)
    (hhead : ∀ x ∈ v.head?, x ≠ 0) :
    b58decode (b58encode v) = some v := by
  match v with
  | [] => decide
  | h0 :: t =>
    have hh0 : h0 ≠ 0 := hhead h0 (by simp)
    have hacc : 0 < fromBase 256 (h0 :: t) := fromBase_head_pos 256 h0 t (by norm_num) hh0
    have hstrip : (h0 :: t).dropWhile (· == 0) = h0 :: t := by
      simp [List.dropWhile_cons, hh0]
    have henc : b58encode (h0 :: t) =
        (natToBase 58 (fromBase 256 (h0 :: t))).map alphaGet := by
      rw [b58encode, hstrip]
      simp [fromBytes]
    set acc := fromBase 256 (h0 :: t) with hacc_def
    have hdigmem : ∀ d ∈ natToBase 58 acc, d < 58 := by
      intro d hd
      rw [natToBase_eq_digits _ _ (by norm_num)] at hd
      exact Nat.digits_lt_base (by norm_num) (List.mem_reverse.mp hd)
    have hdighead : ∀ x ∈ (natToBase 58 acc).head?, x ≠ 0 := by
      intro x hx
      rw [natToBase_eq_digits _ _ (by norm_num), List.head?_reverse] at hx
      have hne : Nat.digits 58 acc ≠ [] :=
        Nat.digits_ne_nil_iff_ne_zero.mpr (by omega)
      rw [List.getLast?_eq_getLast _ hne] at hx
      have := Nat.getLast_digit_ne_zero 58 (show acc ≠ 0 by omega)
      simp only [Option.mem_def, Option.some.injEq] at hx
      omega
    have hall : ((natToBase 58 acc).map alphaGet).all (fun c => alphaCodes.contains c) = true := by
      rw [List.all_eq_true]
      intro c hc
      obtain ⟨d, hd, rfl⟩ := List.mem_map.mp hc
      simpa using alphaGet_mem d (hdigmem d hd)
    have hdrop : ((natToBase 58 acc).map alphaGet).dropWhile (· == 49) =
        (natToBase 58 acc).map alphaGet := by
      cases hnb : natToBase 58 acc with
      | nil => simp
      | cons d0 ds =>
        have hd0 : alphaGet d0 ≠ 49 :=
          alphaGet_ne_one d0 (hdigmem d0 (by rw [hnb]; simp))
            (hdighead d0 (by rw [hnb]; simp))
        simp [List.dropWhile_cons, hd0]
    have hmapidx : ((natToBase 58 acc).map alphaGet).map alphaIdx = natToBase 58 acc := by
      rw [List.map_map]
      conv_rhs => rw [← List.map_id (natToBase 58 acc)]
      apply List.map_congr_left
      intro d hd
      exact alphaIdx_alphaGet d (hdigmem d hd)
    have hbback : natToBytes acc = h0 :: t := by
      rw [natToBytes, hacc_def]
      exact natToBase_fromBase 256 _ (by norm_num) hbytes hhead
    rw [henc, b58decode]
    simp only [hdrop, hall, if_true, Nat.sub_self, List.replicate, List.nil_append,
      hmapidx, fromBase_natToBase 58 acc (by norm_num), hbback]

/-- C5: for every ExtendedKey `k` with valid field lengths, genuine byte
values and a known version, parsing the base58check serialization of `k`
yields `k` back field-for-field (for any 32-byte-valued SHA-256 behaviour of
the checksum hash). -/
theorem parse_ext_key_roundtrip (P : Primitives) (k : ExtendedKey)
    (hk : wellFormedKey k)
    (hsl : ∀ x, (P.sha256 x).length = 32)
    (hsb : ∀ x, ∀ b ∈ P.sha256 x, b < 256) :
    parse_ext_key P (ExtendedKey.str P k) = some k := by
  obtain ⟨ver, dep, fin, chi, cha, dat⟩ := k
  obtain ⟨hv, hd, hf, hc, hcc, hdat, hbytes, hmem⟩ := hk
  simp only at hv hd hf hc hcc hdat hbytes hmem
  set pl := ExtendedKey.payload ⟨ver, dep, fin, chi, cha, dat⟩ with hpl_def
  have hplval : pl = ver ++ (dep ++ (fin ++ (chi ++ (cha ++ dat)))) := by
    simp [hpl_def, ExtendedKey.payload, List.append_assoc]
  set c := (P.sha256 (P.sha256 pl)).take 4 with hc_def
  have hplen : pl.length = 78 := by
    simp [hplval, hv, hd, hf, hc, hcc, hdat]
  have hclen : c.length = 4 := by
    simp [hc_def, hsl]
  have hver4 : ∃ r, ver = 4 :: r := by
    have hm2 := hmem
    simp only [versionList, mainPub, mainPriv, testPub, testPriv, List.mem_cons,
      List.not_mem_nil, or_false] at hm2
    rcases hm2 with h | h | h | h <;> exact ⟨_, by rw [h]⟩
  obtain ⟨vr, hvr⟩ := hver4
  have hfull_cons : ∃ r, pl ++ c = 4 :: r := by
    exact ⟨vr ++ dep ++ fin ++ chi ++ cha ++ dat ++ c, by simp [hplval, hvr]⟩
  have hfhead : ∀ x ∈ (pl ++ c).head?, x ≠ 0 := by
    obtain ⟨r, hr⟩ := hfull_cons
    rw [hr]
    intro x hx
    simp only [List.head?_cons, Option.mem_def, Option.some.injEq] at hx
    omega
  have hfbytes : ∀ x ∈ pl ++ c, x < 256 := by
    intro x hx
    rcases List.mem_append.mp hx with h | h
    · exact hbytes x h
    · exact hsb _ x (List.take_subset _ _ h)
  have hrt := b58decode_b58encode (pl ++ c) hfbytes hfhead
  have hflen : (pl ++ c).length - 4 = 78 := by
    simp [hplen, hclen]
  have hdec : b58decode_check P (ExtendedKey.str P ⟨ver, dep, fin, chi, cha, dat⟩) = some pl := by
    rw [ExtendedKey.str, b58encode_check, ← hpl_def, ← hc_def, b58decode_check, hrt]
    show (if List.drop ((pl ++ c).length - 4) (pl ++ c) =
        List.take 4 (P.sha256 (P.sha256 (List.take ((pl ++ c).length - 4) (pl ++ c))))
        then some (List.take ((pl ++ c).length - 4) (pl ++ c)) else none) = some pl
    rw [hflen, List.take_left' hplen, List.drop_left' hplen, ← hc_def, if_pos rfl]
  rw [parse_ext_key, hdec]
  show (if pl.length = 78 then
      (mkExtendedKey (pl.take 4) ((pl.drop 4).take 1) ((pl.drop 5).take 4)
          ((pl.drop 9).take 4) ((pl.drop 13).take 32) (pl.drop 45)).bind fun key =>
        if key.version ∈ versionList then some key else none
    else none) = some ⟨ver, dep, fin, chi, cha, dat⟩
  rw [if_pos hplen]
  have e1 : pl.take 4 = ver := by
    rw [hplval]; exact List.take_left' hv
  have e2 : (pl.drop 4).take 1 = dep := by
    rw [hplval, List.drop_left' hv]
    exact List.take_left' hd
  have e3 : (pl.drop 5).take 4 = fin := by
    rw [hplval, ← List.append_assoc ver dep,
      List.drop_left' (show (ver ++ dep).length = 5 by simp [hv, hd])]
    exact List.take_left' hf
  have e4 : (pl.drop 9).take 4 = chi := by
    rw [hplval, ← List.append_assoc ver dep, ← List.append_assoc (ver ++ dep) fin,
      List.drop_left' (show ((ver ++ dep) ++ fin).length = 9 by simp [hv, hd, hf])]
    exact List.take_left' hc
  have e5 : (pl.drop 13).take 32 = cha := by
    rw [hplval, ← List.append_assoc ver dep, ← List.append_assoc (ver ++ dep) fin,
      ← List.append_assoc ((ver ++ dep) ++ fin) chi,
      List.drop_left'
        (show (((ver ++ dep) ++ fin) ++ chi).length = 13 by simp [hv, hd, hf, hc])]
    exact List.take_left' hcc
  have e6 : pl.drop 45 = dat := by
    rw [hplval, ← List.append_assoc ver dep, ← List.append_assoc (ver ++ dep) fin,
      ← List.append_assoc ((ver ++ dep) ++ fin) chi,
      ← List.append_assoc (((ver ++ dep) ++ fin) ++ chi) cha]
    exact List.drop_left'
      (show ((((ver ++ dep) ++ fin) ++ chi) ++ cha).length = 45 by
        simp [hv, hd, hf, hc, hcc])
  have hmk : mkExtendedKey ver dep fin chi cha dat =
      some ⟨ver, dep, fin, chi, cha, dat⟩ := by
    rw [mkExtendedKey, if_pos ⟨hv, hd, hf, hc, hcc, hdat⟩]
  rw [e1, e2, e3, e4, e5, e6, hmk]
  show (if ver ∈ versionList then some (⟨ver, dep, fin, chi, cha, dat⟩ : ExtendedKey)
      else none) = some ⟨ver, dep, fin, chi, cha, dat⟩
  rw [if_pos hmem]

/-- Closed witness for the round-trip theorem at a concrete well-formed key
and the toy primitives. -/
theorem parse_ext_key_roundtrip_witness :
    wellFormedKey ⟨mainPub, [0], [0, 0, 0, 0], [0, 0, 0, 0],
        List.replicate 32 0, List.replicate 33 0⟩ ∧
    parse_ext_key tP (ExtendedKey.str tP ⟨mainPub, [0], [0, 0, 0, 0], [0, 0, 0, 0],
        List.replicate 32 0, List.replicate 33 0⟩) =
      some ⟨mainPub, [0], [0, 0, 0, 0], [0, 0, 0, 0],
        List.replicate 32 0, List.replicate 33 0⟩ :=
  ⟨by decide,
   parse_ext_key_roundtrip tP _ (by decide) (fun x => rfl)
     (fun x b hb => by
       have := List.eq_of_mem_replicate hb
       omega)⟩

/-- C1: evaluating `derive_key` on seed `[7]`, path `"m/0"`, public result,
with the toy primitives: the code returns a key (it neuters the final derived
child and feeds that neutered child itself to `CKDpub`), and its key data
differs from the claim's prescription, namely `CKDpub` applied with the final
segment's index to the neutered second-to-last derived key (here the master
key).  Both routes produce a key, and the two key-data fields differ. -/
theorem derive_key_public_nonhardened_mismatch :
    (derive_key tP [7] [109, 47, 48] true false).isSome = true ∧
    ((to_master_key tP [7] true true).bind fun master =>
      ((N tP master.data master.chain_code 0 0 true master.finger).bind fun t0 =>
        (CKDpub tP t0.data t0.chain_code 0 1 t0.finger true).map
          ExtendedKey.data)).isSome = true ∧
    (derive_key tP [7] [109, 47, 48] true false).map ExtendedKey.data ≠
      ((to_master_key tP [7] true true).bind fun master =>
        ((N tP master.data master.chain_code 0 0 true master.finger).bind fun t0 =>
          (CKDpub tP t0.data t0.chain_code 0 1 t0.finger true).map
            ExtendedKey.data)) := by
  decide

/-- C2: with primitives whose HMAC reports an `I_L` of 32 `0xFF` bytes (at
least the curve order), `CKDpub` still returns a key, and the returned child
number is the serialization of the original index 0 — no retry with
`index + 1` happens, matching the TODO left in the source. -/
theorem CKDpub_no_retry_invalid_IL :
    curveOrder ≤ fromBytes ((tPbig.hmac512 (List.replicate 32 3)
        (List.replicate 33 2 ++ [0, 0, 0, 0])).take 32) ∧
    (CKDpub tPbig (List.replicate 33 2) (List.replicate 32 3) 0 1
        [0, 0, 0, 0] true).map ExtendedKey.child_number = some [0, 0, 0, 0] ∧
    (CKDpub tPbig (List.replicate 33 2) (List.replicate 32 3) 0 1
        [0, 0, 0, 0] true).isSome = true := by
  decide

/-- C4: with primitives whose HMAC reports `I_L = curveOrder - 1` and a parent
whose scalar is 1, the child scalar `(I_L + parent) mod curveOrder` is 0, and
`CKDpriv` returns a key whose data field is the all-zero scalar instead of
rejecting it. -/
theorem CKDpriv_zero_child_scalar :
    (fromBytes ((tPnm1.hmac512 (List.replicate 32 0)
          (secret4 ++ [128, 0, 0, 0])).take 32) + fromBytes secret4) % curveOrder = 0 ∧
    (CKDpriv tPnm1 secret4 (List.replicate 32 0) (2 ^ 31) 1 true).map
        ExtendedKey.data = some (0 :: List.replicate 32 0) := by
  decide

/-- Counterexample to C7: an ExtendedKey whose version bytes `00000000` are
not among the four known constants is constructed successfully — `__new__`
never checks version membership. -/
theorem mkExtendedKey_accepts_unknown_version :
    (mkExtendedKey [0, 0, 0, 0] [0] [0, 0, 0, 0] [0, 0, 0, 0]
        (List.replicate 32 0) (List.replicate 33 0)).isSome = true ∧
    [0, 0, 0, 0] ∉ versionList := by
  decide

/-- C7 as amended: construction succeeds exactly when the six field lengths
are correct; version membership is not part of the construction checks. -/
theorem mkExtendedKey_checks_lengths_only
    (version depth finger child_number chain_code data : List Nat) :
    (mkExtendedKey version depth finger child_number chain_code data).isSome ↔
      (version.length = 4 ∧ depth.length = 1 ∧ finger.length = 4 ∧
       child_number.length = 4 ∧ chain_code.length = 32 ∧ data.length = 33) := by
  rw [mkExtendedKey]
  by_cases h : version.length = 4 ∧ depth.length = 1 ∧ finger.length = 4 ∧
      child_number.length = 4 ∧ chain_code.length = 32 ∧ data.length = 33
  · simp [h]
  · simp [h]

/-- C3: whenever the master scalar `I_L` taken from
`HMAC-SHA512(b"Bitcoin seed", seed)` is 0 or at least the curve order,
`to_master_key` fails instead of returning an ExtendedKey (the failure
surfaces through the scalar range check of the curve library call inside
`to_public_key`, the code's realization of `InvalidKeyMaterial`). -/
theorem to_master_key_invalid_scalar_none (P : Primitives) (seed : List Nat)
    (mn pv : Bool)
    (h : fromBytes ((P.hmac512 bitcoinSeedKey seed).take 32) = 0 ∨
         curveOrder ≤ fromBytes ((P.hmac512 bitcoinSeedKey seed).take 32)) :
    to_master_key P seed mn pv = none := by
  have hpk : to_public_key P (0 :: (P.hmac512 bitcoinSeedKey seed).take 32) = none := by
    rw [to_public_key]
    by_cases hl : (0 :: (P.hmac512 bitcoinSeedKey seed).take 32).length = 33
    · rw [if_pos hl]
      dsimp only
      rw [if_neg]
      simp only [List.drop_one, List.tail_cons]
      omega
    · rw [if_neg hl]
  rw [to_master_key]
  rw [hpk]

/-- Closed witness: with the all-zero HMAC primitives the master scalar is 0
and master key generation fails. -/
theorem to_master_key_invalid_scalar_none_witness :
    (fromBytes ((tPzero.hmac512 bitcoinSeedKey [1]).take 32) = 0 ∨
     curveOrder ≤ fromBytes ((tPzero.hmac512 bitcoinSeedKey [1]).take 32)) ∧
    to_master_key tPzero [1] true true = none :=
  ⟨Or.inl (by decide),
   to_master_key_invalid_scalar_none tPzero [1] true true (Or.inl (by decide))⟩

theorem ckdLoop_neg_index (P : Primitives) (cc data : List Nat) (h : Bool)
    (fuel : Nat) (index : Int) (hidx : index < 0) :
    ckdLoop P cc data h fuel index = none := by
  cases fuel with
  | zero => rfl
  | succ f =>
    rw [ckdLoop, toBytesF, if_neg]
    intro hc
    exact absurd hc.1 (by omega)

theorem CKDpriv_neg_index (P : Primitives) (secret cc : List Nat) (index : Int)
    (depth : Nat) (mn : Bool) (hidx : index < 0) :
    CKDpriv P secret cc index depth mn = none := by
  rw [CKDpriv]
  split
  · rfl
  · next i2 derived heq =>
      rw [ckdLoop_neg_index P cc _ _ _ index hidx] at heq
      exact Option.noConfusion heq

theorem CKDpriv_depth_overflow (P : Primitives) (secret cc : List Nat)
    (index : Int) (depth : Nat) (mn : Bool) (hd : 256 ≤ depth) :
    CKDpriv P secret cc index depth mn = none := by
  have h1 : toBytesF 1 ((depth : Nat) : Int) = none := by
    rw [toBytesF, if_neg]
    intro hc
    have h2 := hc.2
    rw [pow_one] at h2
    have : depth < 256 := by exact_mod_cast h2
    omega
  rw [CKDpriv]
  split
  · rfl
  · next i2 derived heq =>
      show ((toBytesF 32 (((fromBytes (List.take 32 derived) + fromBytes secret) %
            curveOrder : Nat) : Int)).bind fun ckb =>
          (toBytesF 1 ((depth : Nat) : Int)).bind fun depthB =>
          (fingerprint P secret).bind fun fingerB =>
          (toBytesF 4 i2).bind fun indexB =>
          mkExtendedKey (versionBytes mn true) depthB fingerB indexB
            (List.drop 32 derived) (0 :: ckb)) = none
      rw [h1]
      cases toBytesF 32 (((fromBytes (List.take 32 derived) + fromBytes secret) %
          curveOrder : Nat) : Int) with
      | none => rfl
      | some ckb => rfl

theorem pythonInt_digits (ds : List Nat) (hne : ds ≠ [])
    (hdig : ∀ c ∈ ds, isDigitB c = true) :
    pythonInt ds = some ((digitsToNat ds : Nat) : Int) := by
  cases ds with
  | nil => exact absurd rfl hne
  | cons c0 cs =>
    have h0 : 48 ≤ c0 ∧ c0 ≤ 57 := by
      have := hdig c0 (by simp)
      simpa [isDigitB] using this
    rw [pythonInt, if_neg (by omega), if_neg (by omega), if_pos]
    exact List.all_eq_true.mpr fun c hc => hdig c hc

theorem hardenedMark_digit (c : Nat) (h : isDigitB c = true) :
    hardenedMark c = false := by
  simp only [isDigitB, decide_eq_true_eq] at h
  simp only [hardenedMark, Bool.or_eq_false_iff, beq_eq_false_iff_ne, ne_eq]
  omega

theorem segment_to_index_eq (segment : List Nat) (c : Nat)
    (hgl : segment.getLast? = some c) :
    segment_to_index segment =
      (let hardened := hardenedMark c
       let seg := if hardened then segment.dropLast else segment
       match pythonInt seg with
       | none => none
       | some index =>
         if index ≤ (NORMAL_CHILD_KEY_COUNT : Int) - 1 then
           some ((if hardened then index + NORMAL_CHILD_KEY_COUNT else index), hardened)
         else none) := by
  rw [segment_to_index, hgl]

/-- C8: on a nonempty all-digit segment with an optional trailing hardened
marker (`h`, `H`, or the apostrophe, code points 104, 72, 39), the parser
returns the decimal value with the `2^31` offset and `true` exactly when the
marker is present, and fails whenever the raw pre-offset value is at least
`2^31`. -/
theorem segment_to_index_digits_spec (ds : List Nat) (hne : ds ≠ [])
    (hdig : ∀ c ∈ ds, isDigitB c = true) :
    (segment_to_index ds =
      if digitsToNat ds < NORMAL_CHILD_KEY_COUNT then
        some (((digitsToNat ds : Nat) : Int), false) else none) ∧
    (∀ suf, suf = 104 ∨ suf = 72 ∨ suf = 39 →
      segment_to_index (ds ++ [suf]) =
        if digitsToNat ds < NORMAL_CHILD_KEY_COUNT then
          some (((digitsToNat ds : Nat) : Int) + (NORMAL_CHILD_KEY_COUNT : Nat), true)
        else none) := by
  have hNn : NORMAL_CHILD_KEY_COUNT = 2147483648 := by
    norm_num [NORMAL_CHILD_KEY_COUNT]
  constructor
  · have hc : ds.getLast? = some (ds.getLast hne) := List.getLast?_eq_getLast ds hne
    have hcd : isDigitB (ds.getLast hne) = true := hdig _ (List.getLast_mem hne)
    rw [segment_to_index_eq ds _ hc]
    simp only [hardenedMark_digit _ hcd, Bool.false_eq_true, if_false,
      pythonInt_digits ds hne hdig]
    by_cases hlt : digitsToNat ds < NORMAL_CHILD_KEY_COUNT
    · rw [if_pos (by rw [hNn] at hlt ⊢; push_cast; omega), if_pos hlt]
    · rw [if_neg (by rw [hNn] at hlt ⊢; push_cast; omega), if_neg hlt]
  · intro suf hsuf
    have hc : (ds ++ [suf]).getLast? = some suf := by
      simp [List.getLast?_concat]
    have hmark : hardenedMark suf = true := by
      rcases hsuf with h | h | h <;> simp [hardenedMark, h]
    rw [segment_to_index_eq _ _ hc]
    simp only [hmark, if_true, List.dropLast_concat,
      pythonInt_digits ds hne hdig]
    by_cases hlt : digitsToNat ds < NORMAL_CHILD_KEY_COUNT
    · rw [if_pos (by rw [hNn] at hlt ⊢; push_cast; omega), if_pos hlt]
    · rw [if_neg (by rw [hNn] at hlt ⊢; push_cast; omega), if_neg hlt]

/-- Closed witness: the segment `"44'"` parses to `(44 + 2^31, true)`, the
segment `"0"` parses to `(0, false)`, and `"2147483648"` is rejected. -/
theorem segment_to_index_digits_spec_witness :
    (([52, 52] : List Nat) ≠ [] ∧ ∀ c ∈ ([52, 52] : List Nat), isDigitB c = true) ∧
    segment_to_index [52, 52, 39] = some ((44 : Int) + 2 ^ 31, true) ∧
    segment_to_index [48] = some ((0 : Int), false) ∧
    segment_to_index [50, 49, 52, 55, 52, 56, 51, 54, 52, 56] = none := by
  refine ⟨⟨by decide, by decide⟩, ?_, ?_, ?_⟩
  · have h := (segment_to_index_digits_spec [52, 52] (by decide) (by decide)).2 39
      (Or.inr (Or.inr rfl))
    show segment_to_index ([52, 52] ++ [39]) = some ((44 : Int) + 2 ^ 31, true)
    rw [h, if_pos (by decide)]
    norm_num [digitsToNat, NORMAL_CHILD_KEY_COUNT]
  · have h := (segment_to_index_digits_spec [48] (by decide) (by decide)).1
    rw [h, if_pos (by decide)]
    norm_num [digitsToNat]
  · have h := (segment_to_index_digits_spec [50, 49, 52, 55, 52, 56, 51, 54, 52, 56]
      (by decide) (by decide)).1
    rw [h, if_neg (by decide)]

/-- Counterexample to C9's consequence: on the concrete path of code points
`[109, 47, 45, 49]` (the string m, slash, minus, one), with the toy
primitives and seed `[7]`,
`derive_key` returns no key at all — the negative index that the parser let
through crashes the 4-byte index serialization inside `CKDpriv` — so
`derive_key` does not accept the path. -/
theorem derive_key_rejects_m_minus1 :
    derive_key tP [7] [109, 47, 45, 49] true true = none := by
  decide

/-- C9 as amended: `segment_to_index` succeeds on the segment `"-1"` with the
negative index `(-1, false)` instead of failing, and the path-parsing stage of
`derive_key` accepts the path m, slash, minus, one (code points
`[109, 47, 45, 49]`); the subsequent derivation then fails for every
primitive instantiation when the negative index is serialized to 4 bytes, so
no key is ever returned for that path. -/
theorem segment_to_index_accepts_negative :
    segment_to_index [45, 49] = some ((-1 : Int), false) ∧
    parseSegments [[45, 49]] = some [((-1 : Int), false)] ∧
    ∀ (P : Primitives) (seed : List Nat) (mn pv : Bool),
      derive_key P seed [109, 47, 45, 49] mn pv = none := by
  refine ⟨by decide, by decide, ?_⟩
  intro P seed mn pv
  rw [derive_key]
  show (if ([109] : List Nat) = [109] then
      (parseSegments [[45, 49]]).bind fun indexes =>
      if indexes = [] then to_master_key P seed mn pv
      else (to_master_key P seed mn true).bind fun parent_key =>
        deriveLoop P mn pv indexes.length parent_key 1 indexes
    else none) = none
  rw [if_pos rfl, show parseSegments [[45, 49]] = some [((-1 : Int), false)] from rfl,
    Option.some_bind']
  show (if ([((-1 : Int), false)] : List (Int × Bool)) = [] then
      to_master_key P seed mn pv
    else (to_master_key P seed mn true).bind fun parent_key =>
      deriveLoop P mn pv 1 parent_key 1 [((-1 : Int), false)]) = none
  rw [if_neg (by simp)]
  cases hm : to_master_key P seed mn true with
  | none => rfl
  | some parent =>
    rw [Option.some_bind', deriveLoop,
      CKDpriv_neg_index P parent.data parent.chain_code (-1) 1 mn (by norm_num)]
    rfl

theorem parseSegments_length : ∀ (l : List (List Nat)) (r : List (Int × Bool)),
    parseSegments l = some r → r.length = l.length := by
  intro l
  induction l with
  | nil =>
    intro r h
    simp only [parseSegments, Option.some.injEq] at h
    rw [← h]
    rfl
  | cons s rest ih =>
    intro r h
    rw [parseSegments] at h
    cases h1 : segment_to_index s with
    | none => rw [h1] at h; exact absurd h (by simp)
    | some i =>
      cases h2 : parseSegments rest with
      | none => rw [h1, h2] at h; exact absurd h (by simp)
      | some is =>
        rw [h1, h2] at h
        have h3 : i :: is = r := by simpa using h
        rw [← h3]
        simp [ih is h2]

theorem deriveLoop_overflow (P : Primitives) (mn pv : Bool) (md : Nat) :
    ∀ (idxs : List (Int × Bool)) (parent : ExtendedKey) (d : Nat),
      d ≤ 256 → 257 ≤ d + idxs.length →
      deriveLoop P mn pv md parent d idxs = none := by
  intro idxs
  induction idxs with
  | nil =>
    intro parent d h1 h2
    simp only [List.length_nil, Nat.add_zero] at h2
    exact absurd h1 (by omega)
  | cons hd tl ih =>
    intro parent d h1 h2
    obtain ⟨index, hardened⟩ := hd
    simp only [List.length_cons] at h2
    by_cases hd256 : 256 ≤ d
    · rw [deriveLoop, CKDpriv_depth_overflow P _ _ index d mn hd256]
      rfl
    · rw [deriveLoop]
      cases hck : CKDpriv P parent.data parent.chain_code index d mn with
      | none => rfl
      | some next =>
        rw [Option.some_bind']
        by_cases hlast : d = md ∧ pv = false
        · rw [if_pos hlast]
          cases hn : N P next.data next.chain_code index d mn next.finger with
          | none => rfl
          | some t =>
            rw [Option.some_bind']
            cases hardened with
            | true =>
              rw [if_pos rfl]
              exact ih t (d + 1) (by omega) (by omega)
            | false =>
              rw [if_neg (by simp)]
              cases hpub : CKDpub P t.data t.chain_code index d t.finger mn with
              | none => rfl
              | some u =>
                rw [Option.some_bind']
                exact ih u (d + 1) (by omega) (by omega)
        · rw [if_neg hlast]
          exact ih next (d + 1) (by omega) (by omega)

/-- C10: for every seed and every path whose `"/"`-split form has at least 257
components (a root plus more than 255 segments), `derive_key` fails rather
than returning a key: by depth 256 the one-byte depth serialization inside
`CKDpriv` overflows, and every earlier failure also aborts the fold.  The
statement needs no well-formedness assumption on the path: ill-formed paths
fail during parsing. -/
theorem derive_key_long_path_none (P : Primitives) (seed path : List Nat)
    (mn pv : Bool) (hlen : 257 ≤ (pySplit 47 path).length) :
    derive_key P seed path mn pv = none := by
  rw [derive_key]
  cases hsp : pySplit 47 path with
  | nil => rfl
  | cons s0 rest =>
    rw [hsp] at hlen
    simp only [List.length_cons] at hlen
    show (if s0 = [109] then
        (parseSegments rest).bind fun indexes =>
        if indexes = [] then to_master_key P seed mn pv
        else (to_master_key P seed mn true).bind fun parent_key =>
          deriveLoop P mn pv indexes.length parent_key 1 indexes
      else none) = none
    by_cases hm : s0 = [109]
    · rw [if_pos hm]
      cases hps : parseSegments rest with
      | none => rfl
      | some indexes =>
        rw [Option.some_bind']
        have hlen2 : indexes.length = rest.length := parseSegments_length rest indexes hps
        have hne : indexes ≠ [] := by
          intro h0
          rw [h0] at hlen2
          simp at hlen2
          omega
        rw [if_neg hne]
        cases hmk : to_master_key P seed mn true with
        | none => rfl
        | some parent =>
          rw [Option.some_bind']
          exact deriveLoop_overflow P mn pv indexes.length indexes parent 1
            (by omega) (by omega)
    · rw [if_neg hm]

set_option maxRecDepth 8000 in
/-- Closed witness: the concrete path `m/0/0/.../0` with 256 segments splits
into 257 components and derivation on it fails with the toy primitives. -/
theorem derive_key_long_path_none_witness :
    257 ≤ (pySplit 47 longPath).length ∧
    derive_key tP [7] longPath true true = none :=
  ⟨by decide, derive_key_long_path_none tP [7] longPath true true (by decide)⟩

theorem mkExtendedKey_fields (pd : List Nat) (hlen : pd.length = 78) :
    mkExtendedKey (pd.take 4) ((pd.drop 4).take 1) ((pd.drop 5).take 4)
      ((pd.drop 9).take 4) ((pd.drop 13).take 32) (pd.drop 45) =
    some ⟨pd.take 4, (pd.drop 4).take 1, (pd.drop 5).take 4, (pd.drop 9).take 4,
      (pd.drop 13).take 32, pd.drop 45⟩ := by
  rw [mkExtendedKey, if_pos]
  refine ⟨?_, ?_, ?_, ?_, ?_, ?_⟩ <;>
    simp [List.length_take, List.length_drop, hlen]

/-- C6: `parse_ext_key` returns a key exactly when the input base58-decodes,
the last four decoded bytes match the recomputed double-SHA256 checksum of the
rest, the payload before the checksum is 78 bytes, and the version field (the
payload's first four bytes) is one of the four known constants; the returned
key is the field-sliced payload.  In particular it fails on a checksum
mismatch, on any payload length other than 78, and on unknown version
bytes. -/
theorem parse_ext_key_checks (P : Primitives) (s : List Nat) (k : ExtendedKey) :
    parse_ext_key P s = some k ↔
      ∃ full, b58decode s = some full ∧
        full.drop (full.length - 4) =
          (P.sha256 (P.sha256 (full.take (full.length - 4)))).take 4 ∧
        (full.take (full.length - 4)).length = 78 ∧
        k = ⟨(full.take (full.length - 4)).take 4,
             ((full.take (full.length - 4)).drop 4).take 1,
             ((full.take (full.length - 4)).drop 5).take 4,
             ((full.take (full.length - 4)).drop 9).take 4,
             ((full.take (full.length - 4)).drop 13).take 32,
             (full.take (full.length - 4)).drop 45⟩ ∧
        k.version ∈ versionList := by
  constructor
  · intro h
    rw [parse_ext_key] at h
    cases hbd : b58decode_check P s with
    | none => rw [hbd] at h; exact absurd h (by simp)
    | some md =>
      rw [hbd, Option.some_bind'] at h
      by_cases hl : md.length = 78
      · rw [if_pos hl, mkExtendedKey_fields md hl, Option.some_bind'] at h
        by_cases hv : md.take 4 ∈ versionList
        · rw [if_pos hv] at h
          have hk : k = ⟨md.take 4, (md.drop 4).take 1, (md.drop 5).take 4,
              (md.drop 9).take 4, (md.drop 13).take 32, md.drop 45⟩ := by
            exact (Option.some.injEq _ _).mp h.symm
          rw [b58decode_check] at hbd
          cases hraw : b58decode s with
          | none => rw [hraw] at hbd; exact absurd hbd (by simp)
          | some full =>
            rw [hraw, Option.some_bind'] at hbd
            by_cases hchk : full.drop (full.length - 4) =
                (P.sha256 (P.sha256 (full.take (full.length - 4)))).take 4
            · have hmd : full.take (full.length - 4) = md := by
                have := hbd
                rw [if_pos hchk] at this
                exact (Option.some.injEq _ _).mp this
              refine ⟨full, rfl, hchk, ?_, ?_, ?_⟩
              · rw [hmd]; exact hl
              · rw [hmd]; exact hk
              · rw [hk]; exact hv
            · rw [if_neg hchk] at hbd
              exact absurd hbd (by simp)
        · rw [if_neg hv] at h
          exact absurd h (by simp)
      · rw [if_neg hl] at h
        exact absurd h (by simp)
  · intro hex
    obtain ⟨full, hraw, hchk, hlen, hk, hver⟩ := hex
    have hbd : b58decode_check P s = some (full.take (full.length - 4)) := by
      rw [b58decode_check, hraw, Option.some_bind']
      show (if full.drop (full.length - 4) =
          (P.sha256 (P.sha256 (full.take (full.length - 4)))).take 4 then
          some (full.take (full.length - 4)) else none) =
        some (full.take (full.length - 4))
      rw [if_pos hchk]
    rw [parse_ext_key, hbd, Option.some_bind']
    show (if (full.take (full.length - 4)).length = 78 then
        (mkExtendedKey ((full.take (full.length - 4)).take 4)
            (((full.take (full.length - 4)).drop 4).take 1)
            (((full.take (full.length - 4)).drop 5).take 4)
            (((full.take (full.length - 4)).drop 9).take 4)
            (((full.take (full.length - 4)).drop 13).take 32)
            ((full.take (full.length - 4)).drop 45)).bind fun key =>
          if key.version ∈ versionList then some key else none
      else none) = some k
    rw [if_pos hlen, mkExtendedKey_fields _ hlen, Option.some_bind']
    rw [hk] at hver ⊢
    show (if (full.take (full.length - 4)).take 4 ∈ versionList then
        some (⟨(full.take (full.length - 4)).take 4,
          ((full.take (full.length - 4)).drop 4).take 1,
          ((full.take (full.length - 4)).drop 5).take 4,
          ((full.take (full.length - 4)).drop 9).take 4,
          ((full.take (full.length - 4)).drop 13).take 32,
          (full.take (full.length - 4)).drop 45⟩ : ExtendedKey) else none) =
      some ⟨(full.take (full.length - 4)).take 4,
        ((full.take (full.length - 4)).drop 4).take 1,
        ((full.take (full.length - 4)).drop 5).take 4,
        ((full.take (full.length - 4)).drop 9).take 4,
        ((full.take (full.length - 4)).drop 13).take 32,
        (full.take (full.length - 4)).drop 45⟩
    rw [if_pos hver]

end BIP32
